import Mathlib

/-!
Verification of the `moo.schema` module: a shallow embedding of its data
model (type variants, fields, namespaces), its dict serialization
(`to_dict` / `from_dict`), its namespace operations (`normalize`,
`__getitem__`, `_make`, `subnamespace`, `isin`, `types`) and its
dependency graph walk (`toposort`), together with theorems settling the
specification claims about them.

Python values are modelled as follows: Python `str` is `String` (string
primitives that the Lean kernel cannot reduce are re-implemented
character-by-character with identical semantics), a Python `list`/`tuple`
of strings is `PyPath` (the class distinguishes the two, since the source
mixes them: the `BaseType` default path is the empty tuple while factory
built paths are lists, and `tuple + list`, `tuple.pop` and `tuple == list`
behave differently from the list versions), Python dicts are ordered
association lists with insert-or-overwrite update, and operations that can
raise (`KeyError`, `AttributeError`, `TypeError`, cycle detection) return
`Option`/`Except`.  Mutation is rendered by explicit state passing: a
function that mutates an object is modelled as returning the updated
value, and the one aliasing effect a claim is about (`from_dict` popping
the path list that `to_dict` shares with the original object) is modelled
by a companion function computing the final contents of that list.
-/

namespace Moo

/-- A Python `list` or `tuple` of strings.  The source code mixes both for
`path` (class default `()`, factory stamped `list`), and several
operations (`+ [x]`, `.pop`, `== list`) are only defined, or behave
differently, on one of them. -/
inductive PyPath where
  | tup : List String → PyPath
  | lst : List String → PyPath
deriving DecidableEq, Repr

/-- `list(p)` in Python: both a list and a tuple convert to a list. -/
def PyPath.toList : PyPath → List String
  | .tup xs => xs
  | .lst xs => xs

/-- `moo.schema.Field`: a named slot of a `Record`; not a type.  `item` is
stored as `str(item)` by the constructor, so it is a string fqn here. -/
structure FieldS where
  name : String
  item : String
  default : Option String
  doc : String
deriving DecidableEq, Repr

/-- A field entry on the wire: `Record.to_dict` emits
`dict(name=f.name, item=f.item)` per field, dropping default and doc. -/
structure WField where
  fname : String
  fitem : String
deriving DecidableEq, Repr

/-- The schema objects of `moo.schema`: the five type variants
(`Boolean`, `Number`, `String`, `Sequence`, `Record`) and `Namespace`.
`Namespace.parts` is the insertion-ordered dict mapping the registration
key to the child object; its `path` is always a Python list (the
`Namespace` constructor always builds one). -/
inductive SObj where
  | boolean (name : String) (doc : String) (path : PyPath)
  | number (name : String) (dtype : String) (doc : String) (path : PyPath)
  | string (name : String) (pattern : Option String) (format : Option String)
      (doc : String) (path : PyPath)
  | sequence (name : String) (items : String) (doc : String) (path : PyPath)
  | record (name : String) (fields : List FieldS) (doc : String) (path : PyPath)
  | namespace (name : String) (path : List String) (doc : String)
      (parts : List (String × SObj))
deriving Repr

/-- `BaseType.schema`: the lowercased class name. -/
def schemaOf : SObj → String
  | .boolean .. => "boolean"
  | .number .. => "number"
  | .string .. => "string"
  | .sequence .. => "sequence"
  | .record .. => "record"
  | .namespace .. => "namespace"

/-- The `name` attribute. -/
def nameOf : SObj → String
  | .boolean n _ _ => n
  | .number n _ _ _ => n
  | .string n _ _ _ _ => n
  | .sequence n _ _ _ => n
  | .record n _ _ _ => n
  | .namespace n _ _ _ => n

/-- The `doc` attribute. -/
def docOf : SObj → String
  | .boolean _ d _ => d
  | .number _ _ d _ => d
  | .string _ _ _ d _ => d
  | .sequence _ _ d _ => d
  | .record _ _ d _ => d
  | .namespace _ _ d _ => d

/-- The `path` attribute (a namespace's is always a list). -/
def pathOf : SObj → PyPath
  | .boolean _ _ p => p
  | .number _ _ _ p => p
  | .string _ _ _ _ p => p
  | .sequence _ _ _ p => p
  | .record _ _ _ p => p
  | .namespace _ p _ _ => .lst p

/-! ### Character-level Python string operations

`str.split(".")`, `str.startswith(p)` and `s[n:]` are re-implemented over
the character list so that the kernel can evaluate them (the built-in
`String.splitOn`/`String.startsWith` are compiled, not reducible).  The
semantics match Python for a one-character separator: splitting the empty
string gives `[""]`, and a trailing separator yields a trailing empty
segment. -/

def pySplitAux (c : Char) : List Char → List Char → List String
  | [], acc => [String.mk acc.reverse]
  | ch :: rest, acc =>
    if ch == c then String.mk acc.reverse :: pySplitAux c rest []
    else pySplitAux c rest (ch :: acc)

/-- Python `s.split(c)` for a single-character separator `c`. -/
def pySplit (s : String) (c : Char) : List String := pySplitAux c s.toList []

def listStarts : List Char → List Char → Bool
  | _, [] => true
  | [], _ :: _ => false
  | a :: as, b :: bs => a == b && listStarts as bs

/-- Python `s.startswith(p)`. -/
def pyStarts (s p : String) : Bool := listStarts s.toList p.toList

/-- Python `s[n:]` (drop the first `n` characters). -/
def pyDrop (s : String) (n : Nat) : String := String.mk (s.toList.drop n)

/-- Python `".".join(xs)`. -/
def dotJoin (xs : List String) : String := String.intercalate "." xs

/-! ### `BaseType.__str__` -/

/-- `BaseType.__str__`: `".".join(self.path + [self.name])`.  When `path`
is a tuple (in particular the class default `()`), `self.path +
[self.name]` raises `TypeError` (tuple + list), modelled as `none`. -/
def strOf (t : SObj) : Option String :=
  match pathOf t with
  | .lst xs => some (dotJoin (xs ++ [nameOf t]))
  | .tup _ => none

/-! ### The dictionary wire form

`PVal` is the universe of values appearing in the dicts that
`to_dict`/`from_dict` exchange; `PDict` is an insertion-ordered Python
dict over it.  `dinsert` is `d[k] = v` (replace in place, else append),
`dpop` is `d.pop(k)` (`none` on a missing key), `dpopD` is `d.pop(k,
default)` and `ddel` is `d.pop(k, None)` with the value discarded. -/

inductive PVal where
  | vstr : String → PVal
  | vnone : PVal
  | vpath : PyPath → PVal
  | vfields : List WField → PVal
  | vdict : List (String × PVal) → PVal
deriving Repr

abbrev PDict := List (String × PVal)

/-- Python `d[k] = v`: overwrite in place when `k` is present, else
append at the end. -/
def dinsert : PDict → String → PVal → PDict
  | [], k, v => [(k, v)]
  | (k', v') :: rest, k, v =>
    if k' == k then (k, v) :: rest else (k', v') :: dinsert rest k v

/-- Python `d.pop(k)`: the value and the dict without the key, or `none`
(a `KeyError`) when absent. -/
def dpop : PDict → String → Option (PVal × PDict)
  | [], _ => none
  | (k', v') :: rest, k =>
    if k' == k then some (v', rest)
    else
      match dpop rest k with
      | none => none
      | some r => some (r.1, (k', v') :: r.2)

/-- Python `d.pop(k, default)`. -/
def dpopD (d : PDict) (k : String) (v0 : PVal) : PVal × PDict :=
  match dpop d k with
  | some r => r
  | none => (v0, d)

/-- Python `d.pop(k, None)` with the result discarded. -/
def ddel (d : PDict) (k : String) : PDict := (dpopD d k .vnone).2

/-- Python `k in d`. -/
def dmem (d : PDict) (k : String) : Bool := d.any (fun e => e.1 == k)

/-! ### `to_dict` -/

/-- The dict built by `BaseType.to_dict`:
`dict(name=..., schema=..., path=..., doc=...)`.  The `path` entry holds
the object's own path list (no copy is taken; aliasing matters for the
`from_dict` mutation claim). -/
def baseToDict (name sch : String) (p : PyPath) (doc : String) : PDict :=
  [("name", .vstr name), ("schema", .vstr sch), ("path", .vpath p),
   ("doc", .vstr doc)]

/-- A Python optional-string value (`None` or a string). -/
def optVal : Option String → PVal
  | some s => .vstr s
  | none => .vnone

mutual

/-- `to_dict` of each variant: the base dict plus the variant-specific
`d.update(...)` entries; a namespace serializes its envelope and then
sets `d[t.name] = t.to_dict()` for each part, in insertion order. -/
def to_dict : SObj → PDict
  | .boolean n d p => baseToDict n "boolean" p d
  | .number n dt d p => dinsert (baseToDict n "number" p d) "dtype" (.vstr dt)
  | .string n pat fm d p =>
    dinsert (dinsert (baseToDict n "string" p d) "pattern" (optVal pat))
      "format" (optVal fm)
  | .sequence n it d p => dinsert (baseToDict n "sequence" p d) "items" (.vstr it)
  | .record n fs d p =>
    dinsert (baseToDict n "record" p d) "fields"
      (.vfields (fs.map (fun f => ⟨f.name, f.item⟩)))
  | .namespace n p d parts => toDictParts parts (baseToDict n "namespace" (.lst p) d)

/-- The `for t in self.parts.values(): d[t.name] = t.to_dict()` loop. -/
def toDictParts : List (String × SObj) → PDict → PDict
  | [], acc => acc
  | e :: rest, acc => toDictParts rest (dinsert acc (nameOf e.2) (.vdict (to_dict e.2)))

end

/-! ### `from_dict` -/

/-- `Namespace.__init__(name, path, doc, **parts)`:
`n = name.split(".")`, the final segment becomes `name`, the earlier
segments are appended to a copy of `path`. -/
def mkNamespace (name : String) (path : List String) (doc : String)
    (parts : List (String × SObj)) : SObj :=
  .namespace ((pySplit name '.').getLastD "") (path ++ (pySplit name '.').dropLast)
    doc parts

/-- Python `schema == "namespace"` for an arbitrary popped value. -/
def isNamespaceTag : PVal → Bool
  | .vstr s => s == "namespace"
  | _ => false

theorem dpop_sizeOf : ∀ (d : PDict) (k : String) (v : PVal) (d' : PDict),
    dpop d k = some (v, d') → sizeOf d' < sizeOf d := by
  intro d
  induction d with
  | nil => intro k v d' h; simp [dpop] at h
  | cons e rest ih =>
    intro k v d' h
    rw [dpop] at h
    by_cases hk : (e.1 == k) = true
    · rw [if_pos hk] at h
      cases h
      simp only [List.cons.sizeOf_spec]
      omega
    · rw [if_neg hk] at h
      cases hm : dpop rest k with
      | none => rw [hm] at h; simp at h
      | some r =>
        rw [hm] at h
        simp only [Option.some.injEq, Prod.mk.injEq] at h
        obtain ⟨h5, h6⟩ := h
        subst h6
        have h7 := ih k r.1 r.2 (by rw [hm, Prod.mk.eta])
        simp only [List.cons.sizeOf_spec, Prod.mk.sizeOf_spec, Prod.mk.eta]
        omega

theorem dpopD_sizeOf (d : PDict) (k : String) (v0 : PVal) :
    sizeOf (dpopD d k v0).2 ≤ sizeOf d := by
  rw [dpopD]
  cases hm : dpop d k with
  | none => exact Nat.le_refl _
  | some r => exact Nat.le_of_lt (dpop_sizeOf d k r.1 r.2 (by rw [hm, Prod.mk.eta]))

theorem ddel_sizeOf (d : PDict) (k : String) : sizeOf (ddel d k) ≤ sizeOf d := by
  rw [ddel]
  exact dpopD_sizeOf d k .vnone

/-- `meth(name, **d)` for a non-namespace schema kind: the throwaway
namespace's schema-kind factory `_make(cls, name, **kwds)` stamps
`path = ns.path + [ns.name]` (given here as `stamp`) and calls the class
constructor with the remaining dict entries as keyword arguments.  A
missing keyword takes the constructor's default, an unexpected leftover
keyword is a `TypeError` (`none`), and an unknown schema kind falls back
to a `parts` lookup on the empty throwaway namespace, a `KeyError`
(`none`).  `Sequence.__init__` stores `str(items)`, so an absent `items`
(default `None`) is stored as the string `"None"`. -/
def buildType (schema name : String) (stamp : PyPath) (d : PDict) : Option SObj :=
  if schema == "boolean" then
    match dpopD d "doc" (.vstr "") with
    | (.vstr doc, d1) => if d1.isEmpty then some (.boolean name doc stamp) else none
    | _ => none
  else if schema == "number" then
    match dpopD d "dtype" (.vstr "i4") with
    | (.vstr dt, d1) =>
      match dpopD d1 "doc" (.vstr "") with
      | (.vstr doc, d2) =>
        if d2.isEmpty then some (.number name dt doc stamp) else none
      | _ => none
    | _ => none
  else if schema == "string" then
    match dpopD d "pattern" .vnone with
    | (pv, d1) =>
      match dpopD d1 "format" .vnone with
      | (fv, d2) =>
        match dpopD d2 "doc" (.vstr "") with
        | (.vstr doc, d3) =>
          if d3.isEmpty then
            match pv, fv with
            | .vstr ps, .vstr fs => some (.string name (some ps) (some fs) doc stamp)
            | .vstr ps, .vnone => some (.string name (some ps) none doc stamp)
            | .vnone, .vstr fs => some (.string name none (some fs) doc stamp)
            | .vnone, .vnone => some (.string name none none doc stamp)
            | _, _ => none
          else none
        | _ => none
  else if schema == "sequence" then
    match dpopD d "items" .vnone with
    | (iv, d1) =>
      match dpopD d1 "doc" (.vstr "") with
      | (.vstr doc, d2) =>
        if d2.isEmpty then
          match iv with
          | .vstr it => some (.sequence name it doc stamp)
          | .vnone => some (.sequence name "None" doc stamp)
          | _ => none
        else none
      | _ => none
  else if schema == "record" then
    match dpopD d "fields" (.vfields []) with
    | (.vfields fs, d1) =>
      match dpopD d1 "doc" (.vstr "") with
      | (.vstr doc, d2) =>
        if d2.isEmpty then
          some (.record name (fs.map (fun f => ⟨f.fname, f.fitem, none, ""⟩)) doc stamp)
        else none
      | _ => none
    | _ => none
  else none

/-- The dict that remains once `from_dict` has popped the envelope keys
`schema`, `deps`, `name`, `path` and `doc` (pops of distinct keys
commute, so this equals the residue of the pop sequence whenever the
namespace branch is reached): what the `for n,p in d.items()` loop of
the namespace branch iterates over. -/
def stripEnvelope (d : PDict) : PDict :=
  ddel (ddel (ddel (ddel (ddel d "schema") "deps") "name") "path") "doc"

theorem stripEnvelope_sizeOf (d : PDict) : sizeOf (stripEnvelope d) ≤ sizeOf d := by
  rw [stripEnvelope]
  calc sizeOf (ddel (ddel (ddel (ddel (ddel d "schema") "deps") "name") "path") "doc")
      ≤ sizeOf (ddel (ddel (ddel (ddel d "schema") "deps") "name") "path") := ddel_sizeOf _ _
    _ ≤ sizeOf (ddel (ddel (ddel d "schema") "deps") "name") := ddel_sizeOf _ _
    _ ≤ sizeOf (ddel (ddel d "schema") "deps") := ddel_sizeOf _ _
    _ ≤ sizeOf (ddel d "schema") := ddel_sizeOf _ _
    _ ≤ sizeOf d := ddel_sizeOf _ _

mutual

/-- `from_dict(d)`: pops `schema`, `deps` (discarded), `name`, `path`;
a `"namespace"` schema pops `doc` and rebuilds every remaining entry
(computed as `stripEnvelope d`) as a part; any other schema builds a
throwaway namespace from the popped-off last path segment
(`path.pop(-1)` on the shared list — the mutation is tracked by
`pathEffect`) and dispatches to the schema-kind factory.  A nonempty
tuple path has no `.pop` (`AttributeError`, `none`); an empty path
yields the throwaway `Namespace("")` whose stamp is `[""]`. -/
def from_dict (d : PDict) : Option SObj :=
  match dpop d "schema" with
  | none => none
  | some (sv, d1) =>
    match dpop (ddel d1 "deps") "name" with
    | none => none
    | some (nv, d3) =>
      match dpop d3 "path" with
      | none => none
      | some (pv, d4) =>
        match sv, nv, pv with
        | .vstr schema, .vstr name, .vpath path =>
          if schema == "namespace" then
            match dpopD d4 "doc" (.vstr "") with
            | (.vstr doc, _) =>
              match fromParts (stripEnvelope d) with
              | some parts => some (mkNamespace name path.toList doc parts)
              | none => none
            | _ => none
          else
            match path with
            | .tup [] => buildType schema name (.lst [""]) d4
            | .lst [] => buildType schema name (.lst [""]) d4
            | .tup (_ :: _) => none
            | .lst (x :: xs) =>
              buildType schema name
                (.lst (((x :: xs).dropLast ++ (pySplit ((x :: xs).getLastD "") '.').dropLast)
                  ++ [(pySplit ((x :: xs).getLastD "") '.').getLastD ""])) d4
        | _, _, _ => none
termination_by (sizeOf d, 1)
decreasing_by
  rcases Nat.lt_or_eq_of_le (stripEnvelope_sizeOf d) with hlt | heq
  · exact Prod.Lex.left _ _ hlt
  · rw [heq]
    exact Prod.Lex.right _ (by omega)

/-- The `for n,p in d.items(): parts[n] = from_dict(p)` loop; a non-dict
part value fails (`dict(p)` raises). -/
def fromParts : PDict → Option (List (String × SObj))
  | [] => some []
  | (k, v) :: rest =>
    match v with
    | .vdict pd =>
      match from_dict pd with
      | some o =>
        match fromParts rest with
        | some os => some ((k, o) :: os)
        | none => none
      | none => none
    | _ => none
termination_by d => (sizeOf d, 0)
decreasing_by
  · apply Prod.Lex.left
    simp only [List.cons.sizeOf_spec, Prod.mk.sizeOf_spec, PVal.vdict.sizeOf_spec]
    omega
  · apply Prod.Lex.left
    simp only [List.cons.sizeOf_spec]
    omega

end

/-- The contents, after `from_dict(d)` has run, of the very list object
that was bound to `d`'s `"path"` key (which `to_dict` shares with the
serialized object): the last element is popped exactly when the payload
is a non-namespace one and the path is a nonempty list.  A nonempty tuple
raises before mutating; empty paths are falsy and untouched. -/
def pathEffect (d : PDict) : Option PyPath :=
  match dpop d "schema" with
  | none => none
  | some (sv, d1) =>
    match dpop (ddel d1 "deps") "name" with
    | none => none
    | some (_, d3) =>
      match dpop d3 "path" with
      | none => none
      | some (pv, _) =>
        match pv with
        | .vpath p =>
          if isNamespaceTag sv then some p
          else
            match p with
            | .lst (x :: xs) => some (.lst (x :: xs).dropLast)
            | other => some other
        | _ => none

/-! ### The round-trip comparison -/

mutual

/-- What survives `from_dict ∘ to_dict` exactly: everything except each
record field's `default` and `doc`, which the wire form drops. -/
def strip : SObj → SObj
  | .boolean n d p => .boolean n d p
  | .number n dt d p => .number n dt d p
  | .string n pat fm d p => .string n pat fm d p
  | .sequence n it d p => .sequence n it d p
  | .record n fs d p => .record n (fs.map (fun f => ⟨f.name, f.item, none, ""⟩)) d p
  | .namespace n p d parts => .namespace n p d (stripParts parts)

def stripParts : List (String × SObj) → List (String × SObj)
  | [] => []
  | e :: rest => (e.1, strip e.2) :: stripParts rest

end

/-- The wire envelope keys of a namespace payload; a part registered
under one of these would collide with the envelope. -/
def reservedKeys : List String := ["name", "schema", "path", "doc", "deps"]

/-- A non-namespace `path` that survives the round trip: a nonempty
Python list whose last segment contains no dot (the throwaway
`Namespace(nsname, ...)` constructor splits `nsname` on dots). -/
def nonNsPathOK : PyPath → Bool
  | .lst [] => false
  | .lst (x :: xs) =>
    pySplit ((x :: xs).getLastD "") '.' == [(x :: xs).getLastD ""]
  | .tup _ => false

mutual

/-- Well-formedness for the round-trip law: non-namespace objects carry a
nonempty list path with a dot-free last segment; a namespace has a
dot-free name and its parts are registered under the child's own name,
avoid the reserved envelope keys, have pairwise distinct keys, and are
recursively well formed.  All of this holds for factory-built trees. -/
def wf : SObj → Bool
  | .boolean _ _ p => nonNsPathOK p
  | .number _ _ _ p => nonNsPathOK p
  | .string _ _ _ _ p => nonNsPathOK p
  | .sequence _ _ _ p => nonNsPathOK p
  | .record _ _ _ p => nonNsPathOK p
  | .namespace nm _ _ parts =>
    (pySplit nm '.' == [nm]) && decide ((parts.map Prod.fst).Nodup) && wfParts parts

def wfParts : List (String × SObj) → Bool
  | [] => true
  | (k, c) :: rest =>
    (k == nameOf c) && !(reservedKeys.contains k) && wf c && wfParts rest

end

/-! ### Namespace operations -/

/-- `self.parts[k]` as a lookup (`none` is a `KeyError`). -/
def partsLookup : List (String × SObj) → String → Option SObj
  | [], _ => none
  | e :: rest, k => if e.1 == k then some e.2 else partsLookup rest k

/-- `self.parts[k] = v`: overwrite in place when present, else append. -/
def partsSet : List (String × SObj) → String → SObj → List (String × SObj)
  | [], k, v => [(k, v)]
  | e :: rest, k, v => if e.1 == k then (k, v) :: rest else e :: partsSet rest k v

/-- `str(self)` for an object whose path is read as a list (always true
of namespaces, whose constructor builds a list path). -/
def fqnOf (t : SObj) : String := dotJoin ((pathOf t).toList ++ [nameOf t])

/-- `Namespace.normalize(key)` for a string key: strip a leading
`str(self) + "."` prefix, else return the key unchanged. -/
def normalize (self : SObj) (key : String) : String :=
  let pfx := fqnOf self ++ "."
  if pyStarts key pfx then pyDrop key pfx.length else key

/-- `Namespace.__getitem__`: normalize, split on dots, look up the first
segment in `parts` (`KeyError` = `none` when absent), and recurse into
the found child with the re-joined remainder (`got['.'.join(path)]`; a
non-namespace child has no `__getitem__`, a `TypeError` = `none`).  The
fuel only bounds the recursion depth and is never exhausted when started
at `key.length + 1`, since each recursion's key is strictly shorter. -/
def getItemF : Nat → SObj → String → Option SObj
  | 0, _, _ => none
  | fuel + 1, self, key =>
    match self with
    | .namespace _ _ _ parts =>
      match pySplit (normalize self key) '.' with
      | [] => none
      | p0 :: rest =>
        match partsLookup parts p0 with
        | none => none
        | some got => if rest.isEmpty then some got else getItemF fuel got (dotJoin rest)
    | _ => none

/-- `self[key]`. -/
def getItem (self : SObj) (key : String) : Option SObj :=
  getItemF (key.length + 1) self key

/-- `Namespace._make(cls, name)` composed with the schema-kind factory
lambda of `Namespace.__getattr__`, for a factory invoked with only the
name argument (as the claims use it): the constructor is called with
`path` stamped to `self.path + [self.name]` and the result is registered
into `self.parts` under `name` — the full string handed to the factory,
even when the constructor itself (only `Namespace.__init__` does this)
splits a dotted name.  Constructor defaults: `Number.dtype = "i4"`,
`String.pattern = format = None`, `Sequence.items = str(None) = "None"`.
The `record` factory and the non-factory `parts` fallback of
`__getattr__` are not needed by any claim and yield `none` here. -/
def nsMake (self : SObj) (cls name : String) : Option (SObj × SObj) :=
  match self with
  | .namespace snm sp sd sparts =>
    let stamp := sp ++ [snm]
    let mkObj : Option SObj :=
      if cls == "boolean" then some (.boolean name "" (.lst stamp))
      else if cls == "number" then some (.number name "i4" "" (.lst stamp))
      else if cls == "string" then some (.string name none none "" (.lst stamp))
      else if cls == "sequence" then some (.sequence name "None" "" (.lst stamp))
      else if cls == "namespace" then some (mkNamespace name stamp "" [])
      else none
    match mkObj with
    | some o => some (o, .namespace snm sp sd (partsSet sparts name o))
    | none => none
  | _ => none

/-- The `for sp in subpath: ns = ns.namespace(sp)` loop of
`subnamespace`, in tree form: each step registers a fresh
`Namespace(sp, ns.path + [ns.name])` under key `sp` — unconditionally
overwriting any existing part — and descends into it.  A non-namespace
`ns` has no `namespace` factory (`AttributeError` = `none`). -/
def nsLoop : List String → SObj → Option SObj
  | [], ns => some ns
  | sp :: rest, ns =>
    match ns with
    | .namespace nm p d parts =>
      match nsLoop rest (mkNamespace sp (p ++ [nm]) "" []) with
      | some deep => some (.namespace nm p d (partsSet parts sp deep))
      | none => none
    | _ => none

/-- `Namespace.subnamespace(subpath)` in tree form (returning the updated
tree rooted at `self`; the Python return value is the deepest namespace,
an alias into this tree): normalize and split the path, reuse an
existing first segment or create and register a fresh one, then run the
`ns.namespace(sp)` loop over the remaining segments. -/
def subnamespace (self : SObj) (subpath : String) : Option SObj :=
  match self with
  | .namespace nm p d parts =>
    match pySplit (normalize self subpath) '.' with
    | [] => some self
    | first :: rest =>
      match partsLookup parts first with
      | some child =>
        match nsLoop rest child with
        | some deep => some (.namespace nm p d (partsSet parts first deep))
        | none => none
      | none =>
        match nsLoop rest (mkNamespace first (p ++ [nm]) "" []) with
        | some deep => some (.namespace nm p d (partsSet parts first deep))
        | none => none
  | _ => none

/-- `Namespace.isin(typ)`: with `me = self.path + [self.name]` and
`n = len(typ.path)`, the source computes
`n >= len(me) and typ.path == me[:n]`.  Since `me[:n]` is all of `me`
whenever `n >= len(me)`, this is exact path equality, not the prefix
test of the docstring.  A tuple path compares unequal to the list `me`
in Python, hence `false`. -/
def isin (self typ : SObj) : Bool :=
  match self with
  | .namespace nm p _ _ =>
    let me := p ++ [nm]
    match pathOf typ with
    | .lst tp => decide (me.length ≤ tp.length) && (tp == me.take tp.length)
    | .tup _ => false
  | _ => false

/-- `Namespace.types(recur)`: the loop condition reads
`"namespace" == t.schema()` — but `schema` is a property returning a
string, so the call raises `TypeError: 'str' object is not callable` on
the first part regardless of the `recur` flag.  Only a namespace with no
parts returns (the empty list). -/
def types (self : SObj) (_recur : Bool) : Option (List SObj) :=
  match self with
  | .namespace _ _ _ [] => some []
  | _ => none

/-! ### Dependency graph and `toposort`

`deps` is an attribute only `Sequence` (`[self.items]`) and `Record`
(`[str(f.item) for f in self.fields]`) define; reading it on any other
variant raises (`AttributeError`, or `KeyError` through
`Namespace.__getattr__`), modelled as `none`.

`toposort` is the depth-first walk of the source, with `marks` as an
insertion-ordered dict and the recursion given explicit fuel so that the
definition stays kernel-computable; `visitFuel = g.length + 1` exceeds
the deepest possible chain of in-progress nodes and `loopFuel =
g.length` bounds the driver, so the `fuelOut` branches are unreachable
(proved below for the runs the theorems describe). -/

/-- The `deps` accessor: present only on `Sequence` and `Record`. -/
def depsOf : SObj → Option (List String)
  | .sequence _ it _ _ => some [it]
  | .record _ fs _ _ => some (fs.map (fun f => f.item))
  | _ => none

inductive Mark where
  | temp
  | perm
deriving DecidableEq, Repr

inductive TopoErr where
  | cycle
  | keyErr (node : String)
  | attrErr (node : String)
  | fuelOut
deriving DecidableEq, Repr

/-- The mutable state of `toposort`: the `marks` dict and the `ret`
output list. -/
structure St where
  marks : List (String × Mark)
  ret : List String
deriving DecidableEq, Repr

/-- `marks.get(node, None)`: first-match lookup (marks are prepended and
shadow older entries, like dict overwrite). -/
def mlookup : List (String × Mark) → String → Option Mark
  | [], _ => none
  | e :: rest, k => if e.1 == k then some e.2 else mlookup rest k

/-- `graph[node]` (`none` is a `KeyError`). -/
def glookup : List (String × SObj) → String → Option SObj
  | [], _ => none
  | e :: rest, k => if e.1 == k then some e.2 else glookup rest k

/-- `list(graph.keys())`. -/
def keysOf (g : List (String × SObj)) : List String := g.map Prod.fst

/-- `toposort`'s recursive `visit`: return on a permanent mark, raise on
a temporary mark (cycle), else mark temporary, visit each dependency of
`graph[node]`, then mark permanent and append to the output. -/
def visit (g : List (String × SObj)) : Nat → String → St → Except TopoErr St
  | 0, _, _ => .error .fuelOut
  | fuel + 1, node, st =>
    match mlookup st.marks node with
    | some .perm => .ok st
    | some .temp => .error .cycle
    | none =>
      let st1 : St := ⟨(node, .temp) :: st.marks, st.ret⟩
      match glookup g node with
      | none => .error (.keyErr node)
      | some t =>
        match depsOf t with
        | none => .error (.attrErr node)
        | some ds =>
          match ds.foldl (fun (acc : Except TopoErr St) d => acc.bind (fun s => visit g fuel d s)) (Except.ok st1) with
          | .error e => .error e
          | .ok st2 => .ok ⟨(node, .perm) :: st2.marks, st2.ret ++ [node]⟩

/-- The `while nodes:` driver: pop the head, visit it, and drop every
node already marked before iterating. -/
def topoLoop (g : List (String × SObj)) (vfuel : Nat) :
    Nat → List String → St → Except TopoErr (List String)
  | _, [], st => .ok st.ret
  | 0, _ :: _, _ => .error .fuelOut
  | lfuel + 1, n :: ns, st =>
    match visit g vfuel n st with
    | .error e => .error e
    | .ok st' => topoLoop g vfuel lfuel (ns.filter (fun m => (mlookup st'.marks m).isNone)) st'

/-- `toposort(graph)` over a graph given as the insertion-ordered list of
its fqn/type entries (as built by `graph()`; keys are unique). -/
def toposort (g : List (String × SObj)) : Except TopoErr (List String) :=
  topoLoop g (g.length + 1) g.length (keysOf g) ⟨[], []⟩

/-- The dependency edge relation of a graph: `Edge g a b` when `a`'s
entry lists `b` among its `deps`. -/
def Edge (g : List (String × SObj)) (a b : String) : Prop :=
  ∃ t, glookup g a = some t ∧ ∃ ds, depsOf t = some ds ∧ b ∈ ds

/-- Every listed dependency fqn is a key of the graph. -/
def Closed (g : List (String × SObj)) : Prop :=
  ∀ p ∈ g, ∀ d ∈ (depsOf p.2).getD [], d ∈ keysOf g

/-- Every node of the graph exposes a `deps` attribute (is a `Sequence`
or a `Record`). -/
def AllDeps (g : List (String × SObj)) : Prop :=
  ∀ p ∈ g, (depsOf p.2).isSome = true

instance decClosed (g : List (String × SObj)) : Decidable (Closed g) := by
  unfold Closed
  infer_instance

instance decAllDeps (g : List (String × SObj)) : Decidable (AllDeps g) := by
  unfold AllDeps
  infer_instance


/-- The ordering guarantee of the output list: every dependency of the
node at position `i` occurs at an earlier position. -/
def RetOrder (g : List (String × SObj)) (l : List String) : Prop :=
  ∀ (i : Nat) (hi : i < l.length) (d : String), Edge g (l[i]) d →
    ∃ (j : Nat) (hj : j < l.length), j < i ∧ l[j] = d

/-- `marks[n] == "temp"`. -/
def isTemp (st : St) (n : String) : Prop := mlookup st.marks n = some .temp

/-- `marks[n] == "perm"`. -/
def isPerm (st : St) (n : String) : Prop := mlookup st.marks n = some .perm

/-- The number of graph keys not yet marked: the quantity that bounds the
depth of the `visit` recursion. -/
def unmarkedLen (g : List (String × SObj)) (st : St) : Nat :=
  ((keysOf g).filter (fun k => (mlookup st.marks k).isNone)).length

/-- Marks only ever accumulate. -/
def marksSome (st st' : St) : Prop :=
  ∀ n, (mlookup st.marks n).isSome = true → (mlookup st'.marks n).isSome = true

/-- The invariant `visit` maintains: `ret` lists exactly the permanently
marked nodes, without duplicates, all of them graph keys, in dependency
order. -/
def Inv (g : List (String × SObj)) (st : St) : Prop :=
  (∀ n, isPerm st n ↔ n ∈ st.ret) ∧ st.ret.Nodup ∧
  (∀ n ∈ st.ret, n ∈ keysOf g) ∧ RetOrder g st.ret

/-! ## Theorems -/

theorem partsSet_self (parts : List (String × SObj)) (k : String) (c : SObj)
    (h : partsLookup parts k = some c) : partsSet parts k c = parts := by
  induction parts with
  | nil => simp [partsLookup] at h
  | cons e rest ih =>
    rw [partsLookup] at h
    rw [partsSet]
    by_cases hk : (e.1 == k) = true
    · rw [if_pos hk] at h ⊢
      obtain rfl : e.2 = c := by simpa using h
      have hek : e.1 = k := by simpa using hk
      rw [← hek, Prod.mk.eta]
    · rw [if_neg hk] at h ⊢
      rw [ih h]

/-- C8 (counterexample): the claim includes a type constructed directly
with the default path — but that default is the empty tuple `()`, and
`__str__`'s `self.path + [self.name]` is a `TypeError` on any tuple, so
`str` raises instead of returning the fqn. -/
theorem str_default_path_raises :
    strOf (SObj.boolean "b" "" (.tup [])) = none := rfl

/-- C8 (amended): for every type whose `path` is a Python list — as all
factory-constructed types have — `str(T)` is `".".join(T.path + [T.name])`,
the fqn of `T`. -/
theorem str_eq_fqn_on_list_path (t : SObj) (xs : List String)
    (h : pathOf t = .lst xs) : strOf t = some (dotJoin (xs ++ [nameOf t])) := by
  rw [strOf, h]

theorem str_eq_fqn_on_list_path_witness :
    pathOf (SObj.number "Count" "i4" "" (.lst ["top", "base"])) = .lst ["top", "base"] ∧
    strOf (SObj.number "Count" "i4" "" (.lst ["top", "base"])) = some "top.base.Count" :=
  ⟨rfl, str_eq_fqn_on_list_path (SObj.number "Count" "i4" "" (.lst ["top", "base"]))
    ["top", "base"] rfl⟩

/-- C3 (code_bug): the leaf variants `Boolean`, `Number` and `String`
expose no `deps` attribute at all (only `Sequence` and `Record` define
one), so `toposort`'s walk reads `graph[node].deps` and raises
`AttributeError` on any graph containing a leaf type instead of seeing
an empty dependency list. -/
theorem leaf_deps_missing :
    depsOf (SObj.boolean "b" "" (.lst ["top"])) = none ∧
    depsOf (SObj.number "n" "i4" "" (.lst ["top"])) = none ∧
    depsOf (SObj.string "s" none none "" (.lst ["top"])) = none ∧
    toposort [("top.n", SObj.number "n" "i4" "" (.lst ["top"]))] =
      .error (.attrErr "top.n") :=
  ⟨rfl, rfl, rfl, rfl⟩

/-- C4 (code_bug): `isin` computes `n >= len(me) and typ.path == me[:n]`
with `n = len(typ.path)`, which is exact equality of `typ.path` with
`me`, not the prefix test the claim (and the method's own docstring,
"in this namespace or a subnamespace") describes: a type whose path
strictly extends `me` — here `["top", "sub"]` against namespace `top` —
is rejected, while the exact-path type is accepted. -/
theorem isin_rejects_subnamespace_member :
    isin (SObj.namespace "top" [] "" []) (SObj.number "n" "i4" "" (.lst ["top", "sub"]))
      = false ∧
    isin (SObj.namespace "top" [] "" []) (SObj.number "n" "i4" "" (.lst ["top"]))
      = true :=
  ⟨rfl, rfl⟩

/-- C6 (code_bug): `Namespace.types` tests `"namespace" == t.schema()`,
but `schema` is a property whose value is a string, so the call raises
`TypeError: 'str' object is not callable` on the first part — for either
value of `recur` — and only a namespace with no parts at all returns
(the empty list). -/
theorem types_raises_on_any_part :
    types (SObj.namespace "top" [] ""
      [("b", SObj.boolean "b" "" (.lst ["top"]))]) false = none ∧
    types (SObj.namespace "top" [] ""
      [("b", SObj.boolean "b" "" (.lst ["top"]))]) true = none ∧
    types (SObj.namespace "top" [] "" []) true = some [] :=
  ⟨rfl, rfl, rfl⟩

/-- C10 (counterexample): the claim quantifies over every schema-kind
factory, but only `Namespace.__init__` splits a dotted name; the number
factory invoked as `ns.number("a.b")` creates an object whose `name` is
the whole dotted string `"a.b"` (not the final segment `"b"`), stamped
with the namespace's own path. -/
theorem factory_dotted_name_not_split_for_number :
    nsMake (SObj.namespace "top" [] "" []) "number" "a.b" =
      some (SObj.number "a.b" "i4" "" (.lst ["top"]),
        SObj.namespace "top" [] "" [("a.b", SObj.number "a.b" "i4" "" (.lst ["top"]))]) :=
  rfl

theorem partsLookup_set_self (l : List (String × SObj)) (k : String) (v : SObj) :
    partsLookup (partsSet l k v) k = some v := by
  induction l with
  | nil => simp [partsSet, partsLookup]
  | cons e rest ih =>
    rw [partsSet]
    by_cases he : (e.1 == k) = true
    · rw [if_pos he, partsLookup]
      simp
    · rw [if_neg he, partsLookup, if_neg he, ih]

theorem partsLookup_set_ne (l : List (String × SObj)) (k k' : String) (v : SObj)
    (h : k' ≠ k) : partsLookup (partsSet l k v) k' = partsLookup l k' := by
  induction l with
  | nil =>
    simp only [partsSet, partsLookup]
    rw [if_neg]
    simp only [beq_iff_eq]
    exact fun hc => h hc.symm
  | cons e rest ih =>
    rw [partsSet]
    by_cases he : (e.1 == k) = true
    · rw [if_pos he, partsLookup, partsLookup]
      have hek : e.1 = k := by simpa using he
      have h1 : (k == k') = false := by
        simp only [beq_eq_false_iff_ne]
        exact fun hc => h hc.symm
      have h2 : (e.1 == k') = false := by rw [hek]; exact h1
      rw [if_neg (by simp [h1]), if_neg (by simp [h2])]
    · rw [if_neg he, partsLookup, partsLookup]
      by_cases hk' : (e.1 == k') = true
      · rw [if_pos hk', if_pos hk']
      · rw [if_neg hk', if_neg hk', ih]

/-- C10 (amended): when the *namespace* factory is invoked with a dotted
name — `ns.namespace("app.sub")` — the created object's `name` is only
the final segment, the earlier segments are folded into its `path`, yet
it is registered in `ns.parts` under the full dotted string; and the
dotted lookup `ns["app.sub"]`, which walks segment by segment starting at
`parts["app"]`, then fails with a missing-key error (provided no part
named `"app"` exists and the key is not shadowed by the namespace's own
fqn prefix), even though the factory call just succeeded. -/
theorem namespace_factory_dotted_registration
    (snm : String) (sp : List String) (sd : String) (sparts : List (String × SObj))
    (nm a b : String)
    (hsplit : pySplit nm '.' = [a, b])
    (hnorm : pyStarts nm (fqnOf (SObj.namespace snm sp sd sparts) ++ ".") = false)
    (habsent : partsLookup sparts a = none)
    (hne : a ≠ nm) :
    ∃ created nparts,
      nsMake (SObj.namespace snm sp sd sparts) "namespace" nm =
        some (created, SObj.namespace snm sp sd nparts) ∧
      nameOf created = b ∧
      pathOf created = .lst (sp ++ [snm, a]) ∧
      partsLookup nparts nm = some created ∧
      getItem (SObj.namespace snm sp sd nparts) nm = none := by
  refine ⟨mkNamespace nm (sp ++ [snm]) "" [], partsSet sparts nm (mkNamespace nm (sp ++ [snm]) "" []), ?_, ?_, ?_, ?_, ?_⟩
  · rfl
  · rw [mkNamespace, hsplit]
    rfl
  · rw [mkNamespace, hsplit]
    simp [pathOf]
  · exact partsLookup_set_self sparts nm _
  · have hfq : fqnOf (SObj.namespace snm sp sd (partsSet sparts nm (mkNamespace nm (sp ++ [snm]) "" []))) =
        fqnOf (SObj.namespace snm sp sd sparts) := rfl
    rw [getItem, getItemF]
    simp only [normalize, hfq, hnorm, if_neg, Bool.false_eq_true, ite_false, hsplit]
    rw [partsLookup_set_ne sparts nm a _ hne, habsent]

theorem namespace_factory_dotted_registration_witness :
    pySplit "app.sub" '.' = ["app", "sub"] ∧
    pyStarts "app.sub" (fqnOf (SObj.namespace "top" [] "" []) ++ ".") = false ∧
    partsLookup ([] : List (String × SObj)) "app" = none ∧
    "app" ≠ "app.sub" ∧
    (∃ created nparts,
      nsMake (SObj.namespace "top" [] "" []) "namespace" "app.sub" =
        some (created, SObj.namespace "top" [] "" nparts) ∧
      nameOf created = "sub" ∧
      pathOf created = .lst ["top", "app"] ∧
      partsLookup nparts "app.sub" = some created ∧
      getItem (SObj.namespace "top" [] "" nparts) "app.sub" = none) :=
  ⟨rfl, rfl, rfl, by decide,
    namespace_factory_dotted_registration "top" [] "" [] "app.sub" "app" "sub"
      rfl rfl rfl (by decide)⟩

/-- C7 (counterexample): after `top.subnamespace("a.b")` has been called
once and a type has been registered in the resulting namespace `b`, a
second `top.subnamespace("a.b")` reuses the first segment `a` but runs
`ns.namespace("b")` for the second, which unconditionally creates a
fresh empty namespace and overwrites the existing one: the previously
registered child `TF` is gone, so the call is not idempotent. -/
theorem subnamespace_second_call_discards_children :
    subnamespace
      (SObj.namespace "top" [] "" [("a", SObj.namespace "a" ["top"] ""
        [("b", SObj.namespace "b" ["top", "a"] ""
          [("TF", SObj.boolean "TF" "" (.lst ["top", "a", "b"]))])])])
      "a.b"
    = some (SObj.namespace "top" [] "" [("a", SObj.namespace "a" ["top"] ""
        [("b", SObj.namespace "b" ["top", "a"] "" [])])]) := rfl

/-- C7 (amended): `subnamespace` is idempotent only for single-segment
paths: when the normalized path has exactly one segment and that segment
is already a part, the call descends the existing child and leaves the
namespace (and every child registered anywhere under it) unchanged.
Deeper segments are recreated afresh, discarding their children. -/
theorem subnamespace_single_segment_preserves
    (nm : String) (p : List String) (d : String) (parts : List (String × SObj))
    (s : String) (c : SObj)
    (hnorm : pyStarts s (fqnOf (SObj.namespace nm p d parts) ++ ".") = false)
    (hsplit : pySplit s '.' = [s])
    (hmem : partsLookup parts s = some c) :
    subnamespace (SObj.namespace nm p d parts) s =
      some (SObj.namespace nm p d parts) := by
  rw [subnamespace]
  simp only [normalize, hnorm, Bool.false_eq_true, ite_false, hsplit, hmem, nsLoop,
    partsSet_self parts s c hmem]

theorem subnamespace_single_segment_preserves_witness :
    pyStarts "base" (fqnOf (SObj.namespace "top" [] ""
      [("base", SObj.namespace "base" ["top"] ""
        [("Count", SObj.number "Count" "i4" "" (.lst ["top", "base"]))])]) ++ ".") = false ∧
    pySplit "base" '.' = ["base"] ∧
    partsLookup [("base", SObj.namespace "base" ["top"] ""
        [("Count", SObj.number "Count" "i4" "" (.lst ["top", "base"]))])] "base" =
      some (SObj.namespace "base" ["top"] ""
        [("Count", SObj.number "Count" "i4" "" (.lst ["top", "base"]))]) ∧
    subnamespace (SObj.namespace "top" [] ""
      [("base", SObj.namespace "base" ["top"] ""
        [("Count", SObj.number "Count" "i4" "" (.lst ["top", "base"]))])]) "base" =
      some (SObj.namespace "top" [] ""
        [("base", SObj.namespace "base" ["top"] ""
          [("Count", SObj.number "Count" "i4" "" (.lst ["top", "base"]))])]) :=
  ⟨rfl, rfl, rfl,
    subnamespace_single_segment_preserves "top" [] "" _ "base" _ rfl rfl rfl⟩

/-- C9 (confirmed): `from_dict` mutates its argument's path list — for a
non-namespace payload whose `"path"` value is a nonempty list, the pops
succeed and `path.pop(-1)` removes the last element of that very list
object (the shallow `dict(d)` copy shares it); and since `to_dict`
stores the object's own path list without copying, the composite
`from_dict(to_dict(T))` on a non-namespace `T` with nonempty list path
leaves the original `T`'s path truncated by one element (its length
drops by one). -/
theorem from_dict_mutates_shared_path :
    (∀ (dd : PDict) (sv : PVal) (d1 : PDict) (nv : PVal) (d3 : PDict)
       (x : String) (xs : List String) (d4 : PDict),
      dpop dd "schema" = some (sv, d1) →
      isNamespaceTag sv = false →
      dpop (ddel d1 "deps") "name" = some (nv, d3) →
      dpop d3 "path" = some (.vpath (.lst (x :: xs)), d4) →
      pathEffect dd = some (.lst (x :: xs).dropLast)) ∧
    (∀ (t : SObj) (x : String) (xs : List String),
      schemaOf t ≠ "namespace" →
      pathOf t = .lst (x :: xs) →
      pathEffect (to_dict t) = some (.lst (x :: xs).dropLast) ∧
      (x :: xs).dropLast.length + 1 = (x :: xs).length) := by
  constructor
  · intro dd sv d1 nv d3 x xs d4 h1 hns h3 h4
    rw [pathEffect, h1]
    simp [h3, h4, hns]
  · intro t x xs hns hp
    refine ⟨?_, by simp⟩
    cases t
    next n d p =>
      cases hp
      simp [to_dict, baseToDict, pathEffect, dpop, ddel, dpopD, isNamespaceTag]
    next n dt d p =>
      cases hp
      simp [to_dict, baseToDict, dinsert, pathEffect, dpop, ddel, dpopD, isNamespaceTag]
    next n pat fm d p =>
      cases hp
      simp [to_dict, baseToDict, dinsert, pathEffect, dpop, ddel, dpopD, isNamespaceTag]
    next n it d p =>
      cases hp
      simp [to_dict, baseToDict, dinsert, pathEffect, dpop, ddel, dpopD, isNamespaceTag]
    next n fs d p =>
      cases hp
      simp [to_dict, baseToDict, dinsert, pathEffect, dpop, ddel, dpopD, isNamespaceTag]
    next n p d parts => exact absurd rfl hns

theorem dpop_absent (d : PDict) (k : String) (h : dmem d k = false) :
    dpop d k = none := by
  induction d with
  | nil => rfl
  | cons e rest ih =>
    rw [dmem, List.any_cons] at h
    rw [Bool.or_eq_false_iff] at h
    rw [dpop, if_neg (by simp [h.1]), ih (by rw [dmem]; exact h.2)]

theorem dinsert_absent (d : PDict) (k : String) (v : PVal) (h : dmem d k = false) :
    dinsert d k v = d ++ [(k, v)] := by
  induction d with
  | nil => rfl
  | cons e rest ih =>
    rw [dmem, List.any_cons] at h
    rw [Bool.or_eq_false_iff] at h
    rw [dinsert, if_neg (by simp [h.1]), ih (by rw [dmem]; exact h.2)]
    rfl

theorem dmem_append (a b : PDict) (k : String) :
    dmem (a ++ b) k = (dmem a k || dmem b k) := by
  simp [dmem, List.any_append]

theorem wfParts_mem (l : List (String × SObj)) (h : wfParts l = true) :
    ∀ e ∈ l, e.1 = nameOf e.2 ∧ reservedKeys.contains e.1 = false ∧ wf e.2 = true := by
  induction l with
  | nil => intro e he; simp at he
  | cons f rest ih =>
    obtain ⟨g, s⟩ := f
    rw [wfParts] at h
    simp only [Bool.and_eq_true, beq_iff_eq, Bool.not_eq_eq_eq_not, Bool.not_true] at h
    obtain ⟨⟨⟨hname, hres⟩, hwfc⟩, hrest⟩ := h
    intro e he
    rcases List.mem_cons.1 he with rfl | hmem
    · exact ⟨hname, hres, hwfc⟩
    · exact ih hrest e hmem

theorem dropLast_append_getLastD (x : String) (xs : List String) :
    (x :: xs).dropLast ++ [(x :: xs).getLastD ""] = x :: xs := by
  induction xs generalizing x with
  | nil => rfl
  | cons y ys ih =>
    have h1 : (x :: y :: ys).dropLast = x :: (y :: ys).dropLast := rfl
    have h2 : (x :: y :: ys).getLastD "" = (y :: ys).getLastD "" := by
      simp [List.getLastD_eq_getLast?]
    rw [h1, h2, List.cons_append, ih y]

theorem dropLast_append_getLast (x : String) (xs : List String) :
    (x :: xs).dropLast ++ [(x :: xs).getLast?.getD ""] = x :: xs := by
  have h := dropLast_append_getLastD x xs
  rwa [List.getLastD_eq_getLast?] at h

theorem toDictParts_append (parts : List (String × SObj)) :
    ∀ acc : PDict,
    (∀ e ∈ parts, dmem acc (nameOf e.2) = false) →
    (parts.map (fun e => nameOf e.2)).Nodup →
    toDictParts parts acc =
      acc ++ parts.map (fun e => (nameOf e.2, PVal.vdict (to_dict e.2))) := by
  induction parts with
  | nil => intro acc _ _; simp [toDictParts]
  | cons e rest ih =>
    intro acc hmem hnd
    rw [toDictParts, dinsert_absent acc (nameOf e.2) _ (hmem e (List.mem_cons_self _ _))]
    rw [List.map_cons, List.nodup_cons] at hnd
    rw [ih (acc ++ [(nameOf e.2, PVal.vdict (to_dict e.2))]) ?hm hnd.2]
    · simp
    case hm =>
      intro e' he'
      have h1 := hmem e' (List.mem_cons_of_mem _ he')
      have h2 : nameOf e.2 ≠ nameOf e'.2 := by
        intro hc
        exact hnd.1 (hc ▸ List.mem_map_of_mem _ he')
      rw [dmem_append, h1]
      simp [dmem, h2]

theorem base_absent (a b d : String) (pp : PyPath) (k : String)
    (h : reservedKeys.contains k = false) :
    dmem (baseToDict a b pp d) k = false := by
  simp only [reservedKeys, List.contains_cons, List.contains_nil, Bool.or_eq_false_iff,
    beq_eq_false_iff_ne] at h
  obtain ⟨h1, h2, h3, h4, _, _⟩ := h
  simp only [dmem, baseToDict, List.any_cons, List.any_nil, Bool.or_eq_false_iff,
    beq_eq_false_iff_ne, ne_eq]
  exact ⟨fun hc => h1 hc.symm, fun hc => h2 hc.symm, fun hc => h3 hc.symm,
    fun hc => h4 hc.symm, trivial⟩

theorem children_reserved_absent (parts : List (String × SObj))
    (hwfp : wfParts parts = true) (k : String) (hk : reservedKeys.contains k = true) :
    dmem (parts.map (fun e => (nameOf e.2, PVal.vdict (to_dict e.2)))) k = false := by
  induction parts with
  | nil => rfl
  | cons e rest ih =>
    obtain ⟨g, c⟩ := e
    rw [wfParts] at hwfp
    simp only [Bool.and_eq_true, beq_iff_eq, Bool.not_eq_eq_eq_not, Bool.not_true] at hwfp
    obtain ⟨⟨⟨hname, hres⟩, _⟩, hrest⟩ := hwfp
    have hne : nameOf c ≠ k := by
      intro hc
      rw [hname, hc] at hres
      rw [hres] at hk
      exact Bool.false_ne_true hk
    have hrest' := ih hrest
    rw [dmem] at hrest'
    simp only [List.map_cons, dmem, List.any_cons]
    simp [hne, hrest']

theorem stripEnvelope_base (nm sch dc : String) (pp : PyPath) (CH : PDict)
    (h1 : dpop CH "schema" = none) (h2 : dpop CH "deps" = none)
    (h3 : dpop CH "name" = none) (h4 : dpop CH "path" = none)
    (h5 : dpop CH "doc" = none) :
    stripEnvelope (("name", PVal.vstr nm) :: ("schema", PVal.vstr sch) ::
      ("path", PVal.vpath pp) :: ("doc", PVal.vstr dc) :: CH) = CH := by
  simp [stripEnvelope, ddel, dpopD, dpop, h1, h2, h3, h4, h5]

theorem fromParts_map (parts : List (String × SObj))
    (hwfp : wfParts parts = true)
    (hrec : ∀ e ∈ parts, from_dict (to_dict e.2) = some (strip e.2)) :
    fromParts (parts.map (fun e => (nameOf e.2, PVal.vdict (to_dict e.2)))) =
      some (stripParts parts) := by
  induction parts with
  | nil => simp [fromParts, stripParts]
  | cons e rest ih =>
    obtain ⟨g, c⟩ := e
    rw [wfParts] at hwfp
    simp only [Bool.and_eq_true, beq_iff_eq] at hwfp
    obtain ⟨⟨⟨hname, _⟩, _⟩, hrest⟩ := hwfp
    have hc := hrec (g, c) (List.mem_cons_self _ _)
    have hr : ∀ e ∈ rest, from_dict (to_dict e.2) = some (strip e.2) :=
      fun e he => hrec e (List.mem_cons_of_mem _ he)
    rw [List.map_cons]
    rw [fromParts]
    simp only at hc
    rw [hc, ih hrest hr, stripParts]
    simp [hname]

theorem roundtrip_aux :
    ∀ (n : Nat) (x : SObj), sizeOf x < n → wf x = true →
      from_dict (to_dict x) = some (strip x) := by
  intro n
  induction n with
  | zero => intro x hx; omega
  | succ n ih =>
    intro x hx hwf
    cases x
    next nm dc pp =>
      rw [wf] at hwf
      match pp, hwf with
      | .lst (y :: ys), hwf =>
        rw [nonNsPathOK] at hwf
        rw [beq_iff_eq, List.getLastD_eq_getLast?] at hwf
        simp [to_dict, baseToDict, from_dict, dpop, ddel, dpopD, buildType, strip,
          hwf, dropLast_append_getLast]
    next nm dt dc pp =>
      rw [wf] at hwf
      match pp, hwf with
      | .lst (y :: ys), hwf =>
        rw [nonNsPathOK] at hwf
        rw [beq_iff_eq, List.getLastD_eq_getLast?] at hwf
        simp [to_dict, baseToDict, dinsert, from_dict, dpop, ddel, dpopD, buildType, strip,
          hwf, dropLast_append_getLast]
    next nm pat fm dc pp =>
      rw [wf] at hwf
      match pp, hwf with
      | .lst (y :: ys), hwf =>
        rw [nonNsPathOK] at hwf
        rw [beq_iff_eq, List.getLastD_eq_getLast?] at hwf
        cases pat <;> cases fm <;>
        simp [to_dict, baseToDict, dinsert, from_dict, dpop, ddel, dpopD, buildType, strip,
          optVal, hwf, dropLast_append_getLast]
    next nm it dc pp =>
      rw [wf] at hwf
      match pp, hwf with
      | .lst (y :: ys), hwf =>
        rw [nonNsPathOK] at hwf
        rw [beq_iff_eq, List.getLastD_eq_getLast?] at hwf
        simp [to_dict, baseToDict, dinsert, from_dict, dpop, ddel, dpopD, buildType, strip,
          hwf, dropLast_append_getLast]
    next nm fs dc pp =>
      rw [wf] at hwf
      match pp, hwf with
      | .lst (y :: ys), hwf =>
        rw [nonNsPathOK] at hwf
        rw [beq_iff_eq, List.getLastD_eq_getLast?] at hwf
        simp [to_dict, baseToDict, dinsert, from_dict, dpop, ddel, dpopD, buildType, strip,
          hwf, dropLast_append_getLast]
    next nm p dc parts =>
      rw [wf] at hwf
      simp only [Bool.and_eq_true, beq_iff_eq, decide_eq_true_eq] at hwf
      obtain ⟨⟨hsplitnm, hnodup⟩, hwfp⟩ := hwf
      have hmemwf := wfParts_mem parts hwfp
      have hnames : parts.map (fun e => nameOf e.2) = parts.map Prod.fst := by
        apply List.map_congr_left
        intro e he
        exact ((hmemwf e he).1).symm
      have htd : to_dict (.namespace nm p dc parts) =
          baseToDict nm "namespace" (.lst p) dc ++
            parts.map (fun e => (nameOf e.2, PVal.vdict (to_dict e.2))) := by
        rw [to_dict]
        exact toDictParts_append parts _
          (fun e he => base_absent nm "namespace" dc (.lst p) (nameOf e.2)
            (by rw [← (hmemwf e he).1]; exact (hmemwf e he).2.1))
          (by rw [hnames]; exact hnodup)
      have hrec : ∀ e ∈ parts, from_dict (to_dict e.2) = some (strip e.2) := by
        intro e he
        have hsz : sizeOf e.2 < sizeOf (SObj.namespace nm p dc parts) := by
          have h1 := List.sizeOf_lt_of_mem he
          have h2 : sizeOf e.2 < sizeOf e := by
            obtain ⟨g, c⟩ := e
            simp only [Prod.mk.sizeOf_spec]
            omega
          simp only [SObj.namespace.sizeOf_spec]
          omega
        exact ih e.2 (by omega) (hmemwf e he).2.2
      have habs : ∀ k, reservedKeys.contains k = true →
          dpop (parts.map (fun e => (nameOf e.2, PVal.vdict (to_dict e.2)))) k = none :=
        fun k hk => dpop_absent _ k (children_reserved_absent parts hwfp k hk)
      have hparts := fromParts_map parts hwfp hrec
      rw [htd]
      have hstrip := stripEnvelope_base nm "namespace" dc (.lst p)
        (parts.map (fun e => (nameOf e.2, PVal.vdict (to_dict e.2))))
        (habs "schema" rfl) (habs "deps" rfl) (habs "name" rfl) (habs "path" rfl)
        (habs "doc" rfl)
      simp [from_dict, baseToDict, dpop, ddel, dpopD, habs "deps" rfl, hstrip, hparts,
        mkNamespace, hsplitnm, PyPath.toList, strip]

/-- C2 (amended): `from_dict(to_dict(x))` reconstructs an object whose
`name`, `path`, `doc` and schema-specific fields equal those `x` had
(record `Field.default`/`Field.doc` excepted, as the claim already
allows) — for every variant and recursively for namespace trees —
provided every non-namespace object involved has a nonempty list `path`
with dot-free last segment, namespace names are single segments, and
parts are registered under their child's own non-reserved, pairwise
distinct names (`wf`); all of which factory-built trees satisfy.  An
empty path breaks the law (see the counterexample), which forces the
nonemptiness restriction. -/
theorem from_dict_to_dict (x : SObj) (hwf : wf x = true) :
    from_dict (to_dict x) = some (strip x) ∧
    nameOf (strip x) = nameOf x ∧ pathOf (strip x) = pathOf x ∧
    docOf (strip x) = docOf x ∧ schemaOf (strip x) = schemaOf x := by
  refine ⟨roundtrip_aux (sizeOf x + 1) x (Nat.lt_succ_self _) hwf, ?_, ?_, ?_, ?_⟩ <;>
    cases x <;> simp [strip, nameOf, pathOf, docOf, schemaOf]

theorem from_dict_to_dict_witness :
    wf (SObj.namespace "top" [] ""
      [("base", SObj.namespace "base" ["top"] ""
        [("Count", SObj.number "Count" "i4" "a count" (.lst ["top", "base"]))])]) = true ∧
    from_dict (to_dict (SObj.namespace "top" [] ""
      [("base", SObj.namespace "base" ["top"] ""
        [("Count", SObj.number "Count" "i4" "a count" (.lst ["top", "base"]))])])) =
      some (strip (SObj.namespace "top" [] ""
        [("base", SObj.namespace "base" ["top"] ""
          [("Count", SObj.number "Count" "i4" "a count" (.lst ["top", "base"]))])])) :=
  ⟨rfl, (from_dict_to_dict (SObj.namespace "top" [] ""
      [("base", SObj.namespace "base" ["top"] ""
        [("Count", SObj.number "Count" "i4" "a count" (.lst ["top", "base"]))])]) rfl).1⟩

/-- C2 (counterexample): for a type constructed with an empty path —
e.g. `Boolean("b", path=[])` — the round trip does not reproduce `path`:
`from_dict` takes the falsy-path branch, builds the throwaway
`Namespace("")`, and stamps `path = [] + [""] = [""]`, so the
reconstructed object's path is `[""]`, not `[]`. -/
theorem roundtrip_breaks_on_empty_path :
    from_dict (to_dict (SObj.boolean "b" "" (.lst []))) =
      some (SObj.boolean "b" "" (.lst [""])) ∧
    from_dict (to_dict (SObj.boolean "b" "" (.lst []))) ≠
      some (SObj.boolean "b" "" (.lst [])) := by
  have h : from_dict (to_dict (SObj.boolean "b" "" (.lst []))) =
      some (SObj.boolean "b" "" (.lst [""])) := by
    simp [to_dict, baseToDict, from_dict, dpop, ddel, dpopD, buildType]
  refine ⟨h, ?_⟩
  rw [h]
  intro hc
  simp at hc

theorem from_dict_mutates_shared_path_witness :
    schemaOf (SObj.number "Count" "i4" "" (.lst ["top", "base"])) ≠ "namespace" ∧
    pathOf (SObj.number "Count" "i4" "" (.lst ["top", "base"])) = .lst ["top", "base"] ∧
    pathEffect (to_dict (SObj.number "Count" "i4" "" (.lst ["top", "base"]))) =
      some (.lst ["top"]) :=
  ⟨by decide, rfl,
    (from_dict_mutates_shared_path.2 (SObj.number "Count" "i4" "" (.lst ["top", "base"]))
      "top" ["base"] (by decide) rfl).1⟩

theorem glookup_mem (g : List (String × SObj)) (k : String) (t : SObj)
    (h : glookup g k = some t) : (k, t) ∈ g := by
  induction g with
  | nil => simp [glookup] at h
  | cons e rest ih =>
    rw [glookup] at h
    by_cases hk : (e.1 == k) = true
    · rw [if_pos hk] at h
      obtain rfl : e.2 = t := by simpa using h
      have hek : e.1 = k := by simpa using hk
      rw [← hek, Prod.mk.eta]
      exact List.mem_cons_self _ _
    · rw [if_neg hk] at h
      exact List.mem_cons_of_mem _ (ih h)

theorem glookup_key (g : List (String × SObj)) (k : String) (t : SObj)
    (h : glookup g k = some t) : k ∈ keysOf g := by
  have hm := glookup_mem g k t h
  exact List.mem_map_of_mem Prod.fst hm

theorem mem_keys_glookup (g : List (String × SObj)) (k : String)
    (h : k ∈ keysOf g) : ∃ t, glookup g k = some t := by
  induction g with
  | nil => simp [keysOf] at h
  | cons e rest ih =>
    rw [keysOf, List.map_cons, List.mem_cons] at h
    rw [glookup]
    by_cases hk : (e.1 == k) = true
    · exact ⟨e.2, if_pos hk⟩
    · rw [if_neg hk]
      rcases h with h | h
      · exact absurd (by simp [h]) hk
      · exact ih h

theorem edge_src_key (g : List (String × SObj)) (a b : String) (h : Edge g a b) :
    a ∈ keysOf g := by
  obtain ⟨t, hg, _, _, _⟩ := h
  exact glookup_key g a t hg

theorem edge_closed_key (g : List (String × SObj)) (hcl : Closed g) (a b : String)
    (h : Edge g a b) : b ∈ keysOf g := by
  obtain ⟨t, hg, ds, hds, hb⟩ := h
  have hmem := glookup_mem g a t hg
  have := hcl (a, t) hmem b
  rw [hds] at this
  exact this hb

theorem unmarked_mono (g : List (String × SObj)) (st st' : St)
    (h : marksSome st st') : unmarkedLen g st' ≤ unmarkedLen g st := by
  apply List.Sublist.length_le
  apply List.monotone_filter_right
  intro k hk
  cases hmk : mlookup st.marks k with
  | none => simp [hmk]
  | some m =>
    have h2 := h k (by simp [hmk])
    rw [Option.isNone_iff_eq_none] at hk
    rw [hk] at h2
    simp at h2

theorem filter_temp_lt (st : St) (node : String)
    (hnone : mlookup st.marks node = none) :
    ∀ ks : List String, node ∈ ks →
    (ks.filter (fun k => (mlookup ((node, Mark.temp) :: st.marks) k).isNone)).length <
    (ks.filter (fun k => (mlookup st.marks k).isNone)).length := by
  intro ks
  induction ks with
  | nil => intro h; simp at h
  | cons k ks ih =>
    intro hkey
    rw [List.mem_cons] at hkey
    by_cases hk : k = node
    · subst hk
      rw [List.filter_cons, List.filter_cons]
      have h1 : (mlookup ((k, Mark.temp) :: st.marks) k).isNone = false := by
        simp [mlookup]
      have h2 : (mlookup st.marks k).isNone = true := by rw [hnone]; rfl
      rw [h1, h2]
      simp only [Bool.false_eq_true, if_false, if_true, List.length_cons]
      have hle : (ks.filter (fun x => (mlookup ((k, Mark.temp) :: st.marks) x).isNone)).length ≤
          (ks.filter (fun x => (mlookup st.marks x).isNone)).length := by
        apply List.Sublist.length_le
        apply List.monotone_filter_right
        intro x hx
        rw [Option.isNone_iff_eq_none] at hx ⊢
        rw [mlookup] at hx
        by_cases hxn : (k == x) = true
        · rw [if_pos hxn] at hx
          exact absurd hx (by simp)
        · rwa [if_neg hxn] at hx
      omega
    · rcases hkey with h | hkey
      · exact absurd h.symm hk
      · rw [List.filter_cons, List.filter_cons]
        have heq : (mlookup ((node, Mark.temp) :: st.marks) k).isNone =
            (mlookup st.marks k).isNone := by
          rw [mlookup]
          rw [if_neg ?hne]
          case hne =>
            simp only [beq_iff_eq]
            exact fun hc => hk hc.symm
        rw [heq]
        by_cases hn : (mlookup st.marks k).isNone = true
        · rw [hn]
          simp only [if_true, List.length_cons]
          have := ih hkey
          omega
        · rw [Bool.not_eq_true] at hn
          rw [hn]
          simp only [Bool.false_eq_true, if_false]
          exact ih hkey

theorem unmarked_temp_lt (g : List (String × SObj)) (st : St) (node : String)
    (hkey : node ∈ keysOf g) (hnone : mlookup st.marks node = none) :
    unmarkedLen g ⟨(node, Mark.temp) :: st.marks, st.ret⟩ < unmarkedLen g st :=
  filter_temp_lt st node hnone (keysOf g) hkey

theorem mlookup_cons_self (ms : List (String × Mark)) (n : String) (m : Mark) :
    mlookup ((n, m) :: ms) n = some m := by
  simp [mlookup]

theorem mlookup_cons_ne (ms : List (String × Mark)) (n k : String) (m : Mark)
    (h : n ≠ k) : mlookup ((n, m) :: ms) k = mlookup ms k := by
  rw [mlookup, if_neg]
  simp only [beq_iff_eq]
  exact h

theorem retOrder_append (g : List (String × SObj)) (l : List String) (node : String)
    (hro : RetOrder g l) (hdeps : ∀ d, Edge g node d → d ∈ l) :
    RetOrder g (l ++ [node]) := by
  intro i hi d hedge
  rw [List.length_append, List.length_singleton] at hi
  by_cases hil : i < l.length
  · rw [List.getElem_append_left hil] at hedge
    obtain ⟨j, hj, hlt, hget⟩ := hro i hil d hedge
    refine ⟨j, by rw [List.length_append]; omega, hlt, ?_⟩
    rw [List.getElem_append_left hj]
    exact hget
  · have hieq : i = l.length := by omega
    have hgetn : (l ++ [node])[i] = node := by
      rw [List.getElem_append_right (by omega)]
      simp [hieq]
    rw [hgetn] at hedge
    have hd := hdeps d hedge
    rw [List.mem_iff_getElem] at hd
    obtain ⟨j, hj, hget⟩ := hd
    refine ⟨j, by rw [List.length_append]; omega, by omega, ?_⟩
    rw [List.getElem_append_left hj]
    exact hget

theorem foldl_bind_error (g : List (String × SObj)) (f : Nat) (e : TopoErr) :
    ∀ ds : List String,
    ds.foldl (fun (acc : Except TopoErr St) d => acc.bind (fun s => visit g f d s))
      (.error e) = .error e := by
  intro ds
  induction ds with
  | nil => rfl
  | cons d ds ih =>
    rw [List.foldl_cons]
    exact ih

/-- The master soundness lemma for `visit`: on a dependency-closed graph
whose nodes all expose `deps`, a call whose fuel exceeds the number of
unmarked keys and whose in-progress marks all reach the visited node
either returns normally — preserving the invariant, the temporary-mark
set and all previous marks, and leaving the node permanently marked — or
fails with the cycle error, in which case the graph really has a
dependency cycle. -/
theorem visit_sound (g : List (String × SObj)) (hcl : Closed g) (had : AllDeps g) :
    ∀ (f : Nat) (node : String) (st : St),
    Inv g st → node ∈ keysOf g →
    (∀ u, isTemp st u → Relation.TransGen (Edge g) u node) →
    unmarkedLen g st < f →
    (∃ st', visit g f node st = .ok st' ∧ Inv g st' ∧
      (∀ n, isTemp st' n ↔ isTemp st n) ∧
      (∀ n, isPerm st n → isPerm st' n) ∧
      marksSome st st' ∧
      isPerm st' node)
    ∨ (visit g f node st = .error .cycle ∧ ∃ a, Relation.TransGen (Edge g) a a) := by
  intro f
  induction f with
  | zero => intro node st _ _ _ hf; omega
  | succ f ih =>
    intro node st hinv hkey hreach hfuel
    cases hm : mlookup st.marks node with
    | some mk =>
      cases mk with
      | perm =>
        left
        refine ⟨st, ?_, hinv, fun n => Iff.rfl, fun n h => h, fun n h => h, hm⟩
        rw [visit, hm]
      | temp =>
        right
        refine ⟨?_, node, hreach node hm⟩
        rw [visit, hm]
    | none =>
      obtain ⟨t, hg⟩ := mem_keys_glookup g node hkey
      obtain ⟨ds, hds⟩ : ∃ ds, depsOf t = some ds := by
        have h1 := had (node, t) (glookup_mem g node t hg)
        cases hd : depsOf t with
        | none => rw [hd] at h1; simp at h1
        | some ds => exact ⟨ds, rfl⟩
      have hpermiff : ∀ n, isPerm (⟨(node, Mark.temp) :: st.marks, st.ret⟩ : St) n ↔
          isPerm st n := by
        intro n
        by_cases hn : node = n
        · subst hn
          rw [isPerm, isPerm, hm, mlookup_cons_self]
          simp
        · rw [isPerm, isPerm, mlookup_cons_ne _ _ _ _ hn]
      have htemp1 : ∀ u, isTemp (⟨(node, Mark.temp) :: st.marks, st.ret⟩ : St) u ↔
          (u = node ∨ isTemp st u) := by
        intro u
        by_cases hu : node = u
        · subst hu
          rw [isTemp, mlookup_cons_self, isTemp, hm]
          simp
        · rw [isTemp, mlookup_cons_ne _ _ _ _ hu, isTemp]
          have : ¬u = node := fun hc => hu hc.symm
          simp [this]
      have hinv1 : Inv g (⟨(node, Mark.temp) :: st.marks, st.ret⟩ : St) := by
        obtain ⟨h1, h2, h3, h4⟩ := hinv
        exact ⟨fun n => (hpermiff n).trans (h1 n), h2, h3, h4⟩
      have hfuel1 : unmarkedLen g (⟨(node, Mark.temp) :: st.marks, st.ret⟩ : St) <
          unmarkedLen g st := unmarked_temp_lt g st node hkey hm
      have hvisit : visit g (f + 1) node st =
          (match ds.foldl (fun (acc : Except TopoErr St) d => acc.bind (fun s => visit g f d s))
              (Except.ok (⟨(node, Mark.temp) :: st.marks, st.ret⟩ : St)) with
           | .error e => .error e
           | .ok st2 => .ok ⟨(node, Mark.perm) :: st2.marks, st2.ret ++ [node]⟩) := by
        rw [visit]
        simp only [hm, hg, hds]
      have hfold : ∀ (ds' : List String), (∀ d ∈ ds', Edge g node d) →
          ∀ stA : St, Inv g stA →
          (∀ n, isTemp stA n ↔ isTemp (⟨(node, Mark.temp) :: st.marks, st.ret⟩ : St) n) →
          marksSome (⟨(node, Mark.temp) :: st.marks, st.ret⟩ : St) stA →
          unmarkedLen g stA ≤ unmarkedLen g (⟨(node, Mark.temp) :: st.marks, st.ret⟩ : St) →
          (∃ stB, ds'.foldl (fun (acc : Except TopoErr St) d => acc.bind (fun s => visit g f d s))
              (Except.ok stA) = .ok stB ∧
            Inv g stB ∧
            (∀ n, isTemp stB n ↔ isTemp (⟨(node, Mark.temp) :: st.marks, st.ret⟩ : St) n) ∧
            (∀ n, isPerm stA n → isPerm stB n) ∧ marksSome stA stB ∧
            unmarkedLen g stB ≤ unmarkedLen g (⟨(node, Mark.temp) :: st.marks, st.ret⟩ : St) ∧
            (∀ d ∈ ds', isPerm stB d))
          ∨ ((ds'.foldl (fun (acc : Except TopoErr St) d => acc.bind (fun s => visit g f d s))
              (Except.ok stA) = .error .cycle) ∧
             ∃ a, Relation.TransGen (Edge g) a a) := by
        intro ds'
        induction ds' with
        | nil =>
          intro _ stA hinvA htmpA _ hulA
          left
          exact ⟨stA, rfl, hinvA, htmpA, fun n h => h, fun n h => h, hulA, by simp⟩
        | cons d rest ihds =>
          intro hedges stA hinvA htmpA hmsA hulA
          rw [List.foldl_cons]
          have hbind : (Except.ok stA).bind (fun s => visit g f d s) = visit g f d stA := rfl
          rw [hbind]
          have hedge := hedges d (List.mem_cons_self _ _)
          have hdkey : d ∈ keysOf g := edge_closed_key g hcl node d hedge
          have hreachd : ∀ u, isTemp stA u → Relation.TransGen (Edge g) u d := by
            intro u hu
            rcases (htemp1 u).1 ((htmpA u).1 hu) with rfl | hust
            · exact Relation.TransGen.single hedge
            · exact Relation.TransGen.tail (hreach u hust) hedge
          have hfueld : unmarkedLen g stA < f := by omega
          rcases ih d stA hinvA hdkey hreachd hfueld with
            ⟨stA', hok, hinvA', htmpA', hpermA', hmsA', hpermd⟩ | ⟨herr, hcyc⟩
          · rw [hok]
            rcases ihds (fun d' hd' => hedges d' (List.mem_cons_of_mem _ hd')) stA' hinvA'
                (fun n => (htmpA' n).trans (htmpA n))
                (fun n h => hmsA' n (hmsA n h))
                (le_trans (unmarked_mono g stA stA' hmsA') hulA) with
              ⟨stB, hfoldok, hinvB, htmpB, hpermB, hmsB, hulB, hall⟩ | ⟨herrB, hcycB⟩
            · left
              refine ⟨stB, hfoldok, hinvB, htmpB, fun n h => hpermB n (hpermA' n h),
                fun n h => hmsB n (hmsA' n h), hulB, ?_⟩
              intro d' hd'
              rcases List.mem_cons.1 hd' with rfl | hd'
              · exact hpermB d' hpermd
              · exact hall d' hd'
            · right
              exact ⟨herrB, hcycB⟩
          · rw [herr]
            right
            exact ⟨foldl_bind_error g f TopoErr.cycle rest, hcyc⟩
      have hedges : ∀ d ∈ ds, Edge g node d := fun d hd => ⟨t, hg, ds, hds, hd⟩
      rcases hfold ds hedges ⟨(node, Mark.temp) :: st.marks, st.ret⟩ hinv1
          (fun n => Iff.rfl) (fun n h => h) (Nat.le_refl _) with
        ⟨stB, hfoldok, hinvB, htmpB, hpermB, hmsB, _, hall⟩ | ⟨herrB, hcycB⟩
      · left
        have hnodetempB : isTemp stB node := (htmpB node).2 (by rw [isTemp, mlookup_cons_self])
        have hnodenotret : node ∉ stB.ret := by
          intro hc
          have := (hinvB.1 node).2 hc
          rw [isPerm] at this
          rw [isTemp] at hnodetempB
          rw [hnodetempB] at this
          simp at this
        refine ⟨⟨(node, Mark.perm) :: stB.marks, stB.ret ++ [node]⟩, ?_, ?_, ?_, ?_, ?_, ?_⟩
        · rw [hvisit, hfoldok]
        · obtain ⟨hB1, hB2, hB3, hB4⟩ := hinvB
          refine ⟨?_, ?_, ?_, ?_⟩
          · intro n
            by_cases hn : node = n
            · subst hn
              rw [isPerm, mlookup_cons_self]
              simp
            · rw [isPerm, mlookup_cons_ne _ _ _ _ hn]
              rw [← isPerm, hB1 n]
              simp only [List.mem_append, List.mem_singleton]
              have : ¬n = node := fun hc => hn hc.symm
              simp [this]
          · rw [List.nodup_append]
            exact ⟨hB2, List.nodup_singleton _, by
              intro a ha hb
              rw [List.mem_singleton] at hb
              subst hb
              exact hnodenotret ha⟩
          · intro n hn
            rcases List.mem_append.1 hn with hn | hn
            · exact hB3 n hn
            · rw [List.mem_singleton] at hn
              subst hn
              exact hkey
          · apply retOrder_append g stB.ret node hB4
            intro d' hedge'
            obtain ⟨t', hg', ds', hds', hd'⟩ := hedge'
            rw [hg] at hg'
            obtain rfl : t = t' := by simpa using hg'
            rw [hds] at hds'
            obtain rfl : ds = ds' := by simpa using hds'
            exact (hB1 d').1 (hall d' hd')
        · intro n
          by_cases hn : node = n
          · subst hn
            rw [isTemp, mlookup_cons_self, isTemp, hm]
            simp
          · rw [isTemp, mlookup_cons_ne _ _ _ _ hn, ← isTemp, htmpB n,
              htemp1 n]
            have : ¬n = node := fun hc => hn hc.symm
            simp [this]
        · intro n hpn
          have hn : node ≠ n := by
            intro hc
            subst hc
            rw [isPerm, hm] at hpn
            simp at hpn
          rw [isPerm, mlookup_cons_ne _ _ _ _ hn, ← isPerm]
          exact hpermB n ((hpermiff n).2 hpn)
        · intro n hsome
          by_cases hn : node = n
          · subst hn
            rw [mlookup_cons_self]
            rfl
          · rw [mlookup_cons_ne _ _ _ _ hn]
            apply hmsB
            rw [mlookup_cons_ne _ _ _ _ hn]
            exact hsome
        · rw [isPerm, mlookup_cons_self]
      · right
        refine ⟨?_, hcycB⟩
        rw [hvisit, herrB]

/-- Soundness of the `while nodes:` driver: starting from a state with no
in-progress marks whose output already satisfies the invariant and whose
unvisited keys are all still listed, the loop either returns a
duplicate-free, dependency-ordered list containing exactly the graph
keys, or fails with the cycle error — in which case the graph has a
dependency cycle. -/
theorem loop_sound (g : List (String × SObj)) (hcl : Closed g) (had : AllDeps g)
    (vf : Nat) :
    ∀ (lf : Nat) (nodes : List String) (st : St),
    Inv g st → (∀ n, ¬ isTemp st n) →
    (∀ n ∈ nodes, n ∈ keysOf g) →
    nodes.length ≤ lf →
    unmarkedLen g st < vf →
    (∀ k ∈ keysOf g, k ∈ nodes ∨ isPerm st k) →
    (∃ l, topoLoop g vf lf nodes st = .ok l ∧
      (∀ k, k ∈ l ↔ k ∈ keysOf g) ∧ l.Nodup ∧ RetOrder g l)
    ∨ (topoLoop g vf lf nodes st = .error .cycle ∧
       ∃ a, Relation.TransGen (Edge g) a a) := by
  intro lf
  induction lf with
  | zero =>
    intro nodes st hinv htmp hsub hlen hfuel hcov
    have hnil : nodes = [] := List.eq_nil_of_length_eq_zero (Nat.le_zero.1 hlen)
    subst hnil
    left
    refine ⟨st.ret, rfl, ?_, hinv.2.1, hinv.2.2.2⟩
    intro k
    constructor
    · exact fun hk => hinv.2.2.1 k hk
    · intro hk
      rcases hcov k hk with h | h
      · simp at h
      · exact (hinv.1 k).1 h
  | succ lf ihl =>
    intro nodes st hinv htmp hsub hlen hfuel hcov
    cases nodes with
    | nil =>
      left
      refine ⟨st.ret, rfl, ?_, hinv.2.1, hinv.2.2.2⟩
      intro k
      constructor
      · exact fun hk => hinv.2.2.1 k hk
      · intro hk
        rcases hcov k hk with h | h
        · simp at h
        · exact (hinv.1 k).1 h
    | cons n ns =>
      have hnkey := hsub n (List.mem_cons_self _ _)
      rcases visit_sound g hcl had vf n st hinv hnkey
          (fun u hu => absurd hu (htmp u)) hfuel with
        ⟨st', hok, hinv', htmp', hperm', hms', hpermn⟩ | ⟨herr, hcyc⟩
      · have hstep : topoLoop g vf (lf + 1) (n :: ns) st =
            topoLoop g vf lf (ns.filter (fun m => (mlookup st'.marks m).isNone)) st' := by
          rw [topoLoop]
          simp only [hok]
        rw [hstep]
        apply ihl
        · exact hinv'
        · intro u hu
          exact htmp u ((htmp' u).1 hu)
        · intro m hm
          exact hsub m (List.mem_cons_of_mem _ (List.mem_of_mem_filter hm))
        · have hfle : (ns.filter (fun m => (mlookup st'.marks m).isNone)).length ≤
              ns.length := List.length_filter_le _ _
          have : ns.length + 1 ≤ lf + 1 := hlen
          omega
        · exact lt_of_le_of_lt (unmarked_mono g st st' hms') hfuel
        · intro k hk
          rcases hcov k hk with hn | hp
          · rcases List.mem_cons.1 hn with rfl | hns
            · right
              exact hpermn
            · by_cases hmark : (mlookup st'.marks k).isNone = true
              · left
                exact List.mem_filter.2 ⟨hns, hmark⟩
              · right
                cases hmk : mlookup st'.marks k with
                | none => rw [hmk] at hmark; simp at hmark
                | some m =>
                  cases m with
                  | temp => exact absurd ((htmp' k).1 hmk) (htmp k)
                  | perm => exact hmk
          · right
            exact hperm' k hp
      · right
        refine ⟨?_, hcyc⟩
        rw [topoLoop]
        simp only [herr]

theorem unmarkedLen_init (g : List (String × SObj)) :
    unmarkedLen g ⟨[], []⟩ = g.length := by
  rw [unmarkedLen]
  have h : (keysOf g).filter (fun k => (mlookup [] k).isNone) = keysOf g := by
    apply List.filter_eq_self.2
    intro a _
    rfl
  rw [h, keysOf, List.length_map]

theorem inv_init (g : List (String × SObj)) : Inv g ⟨[], []⟩ := by
  refine ⟨?_, List.nodup_nil, ?_, ?_⟩
  · intro n
    rw [isPerm]
    simp [mlookup]
  · intro n hn
    simp at hn
  · intro i hi
    simp at hi

/-- C1 (amended): for every graph — a finite string-keyed mapping with
unique keys, as `graph()` builds — in which every node exposes a `deps`
list (is a `Sequence` or `Record`; leaf variants crash the walk, see the
counterexample), every listed dependency fqn is a key of the graph, and
the dependency relation is acyclic, `toposort` returns a list that is a
permutation of the full keyset (no duplicates, no omissions, regardless
of insertion order), and for every node each of its dependencies appears
at a strictly earlier position of the output. -/
theorem toposort_dag (g : List (String × SObj))
    (hnd : (keysOf g).Nodup) (hcl : Closed g) (had : AllDeps g)
    (hacyc : ∀ a, ¬ Relation.TransGen (Edge g) a a) :
    ∃ l, toposort g = .ok l ∧ l.Perm (keysOf g) ∧ RetOrder g l := by
  rcases loop_sound g hcl had (g.length + 1) g.length (keysOf g) ⟨[], []⟩
      (inv_init g) (fun n h => by rw [isTemp] at h; simp [mlookup] at h)
      (fun n h => h) (by rw [keysOf, List.length_map])
      (by rw [unmarkedLen_init]; omega) (fun k hk => Or.inl hk) with
    ⟨l, hok, hmem, hnodup, hro⟩ | ⟨_, a, hcyc⟩
  · exact ⟨l, hok, (List.perm_ext_iff_of_nodup hnodup hnd).2 hmem, hro⟩
  · exact absurd hcyc (hacyc a)

/-- C5 (amended): on a graph with unique keys whose nodes all expose
`deps` lists and whose listed dependencies are all keys, any dependency
cycle makes `toposort` fail with the cycle error (`ValueError: type
dependency graph is not a DAG`) — no ordering of any kind is returned.
(Without the dependency-closure and deps-exposing provisos the failure
can instead be a `KeyError`/`AttributeError`, see the counterexample.) -/
theorem toposort_cycle (g : List (String × SObj))
    (hnd : (keysOf g).Nodup) (hcl : Closed g) (had : AllDeps g)
    (hcyc : ∃ a, Relation.TransGen (Edge g) a a) :
    toposort g = .error .cycle := by
  rcases loop_sound g hcl had (g.length + 1) g.length (keysOf g) ⟨[], []⟩
      (inv_init g) (fun n h => by rw [isTemp] at h; simp [mlookup] at h)
      (fun n h => h) (by rw [keysOf, List.length_map])
      (by rw [unmarkedLen_init]; omega) (fun k hk => Or.inl hk) with
    ⟨l, hok, hmem, hnodup, hro⟩ | ⟨herr, _⟩
  · exfalso
    obtain ⟨a, ha⟩ := hcyc
    have hstep : ∀ x y, Edge g x y → ∀ (i : Nat) (hi : i < l.length), l[i] = x →
        ∃ (j : Nat) (hj : j < l.length), j < i ∧ l[j] = y := by
      intro x y he i hi hx
      exact hro i hi y (by rw [hx]; exact he)
    have main : ∀ x y, Relation.TransGen (Edge g) x y →
        ∀ (i : Nat) (hi : i < l.length), l[i] = x →
        ∃ (j : Nat) (hj : j < l.length), j < i ∧ l[j] = y := by
      intro x y h
      induction h with
      | single he => exact hstep _ _ he
      | tail hxy he ihh =>
        intro i hi hx
        obtain ⟨j, hj, hji, hjy⟩ := ihh i hi hx
        obtain ⟨k, hk, hkj, hky⟩ := hstep _ _ he j hj hjy
        exact ⟨k, hk, by omega, hky⟩
    have hsrc : ∀ x y, Relation.TransGen (Edge g) x y → ∃ b, Edge g x b := by
      intro x y h
      induction h with
      | single he => exact ⟨_, he⟩
      | tail hxy he ihh => exact ihh
    obtain ⟨b0, hab⟩ := hsrc a a ha
    have hal : a ∈ l := (hmem a).2 (edge_src_key g a b0 hab)
    obtain ⟨i, hi, hia⟩ := List.mem_iff_getElem.1 hal
    obtain ⟨j, hj, hji, hja⟩ := main a a ha i hi hia
    have hgeteq : l.get ⟨j, hj⟩ = l.get ⟨i, hi⟩ := by
      rw [List.get_eq_getElem, List.get_eq_getElem, hja, hia]
    have hfin := (List.Nodup.get_inj_iff hnodup).1 hgeteq
    have hji' : j = i := by simpa using hfin
    omega
  · rw [toposort]
    exact herr

/-- C1 (counterexample): the graph `{"a": Boolean("a")}` satisfies the
claim's premises — every listed dependency is a key (there are none) and
the relation is acyclic — yet `toposort` does not return a permutation
of the keyset: it raises `AttributeError` reading `.deps` on the leaf
node (the C3 gap), so the claim needs the every-node-exposes-deps
proviso. -/
theorem toposort_attrerr_on_leaf :
    toposort [("a", SObj.boolean "a" "" (.lst []))] = .error (.attrErr "a") := rfl

theorem toposort_dag_witness :
    (keysOf [("r", SObj.record "r" [] "" (.lst ["p"]))]).Nodup ∧
    Closed [("r", SObj.record "r" [] "" (.lst ["p"]))] ∧
    AllDeps [("r", SObj.record "r" [] "" (.lst ["p"]))] ∧
    (∀ a, ¬ Relation.TransGen (Edge [("r", SObj.record "r" [] "" (.lst ["p"]))]) a a) ∧
    (∃ l, toposort [("r", SObj.record "r" [] "" (.lst ["p"]))] = .ok l ∧
      l.Perm (keysOf [("r", SObj.record "r" [] "" (.lst ["p"]))]) ∧
      RetOrder [("r", SObj.record "r" [] "" (.lst ["p"]))] l) := by
  have hnoedge : ∀ x y, ¬ Edge [("r", SObj.record "r" [] "" (.lst ["p"]))] x y := by
    rintro x y ⟨t, hg, ds, hds, hd⟩
    rw [glookup] at hg
    by_cases hx : ("r" == x) = true
    · rw [if_pos hx] at hg
      obtain rfl : SObj.record "r" [] "" (.lst ["p"]) = t := by simpa using hg
      rw [depsOf] at hds
      obtain rfl : ds = [] := by simpa using hds
      simp at hd
    · rw [if_neg hx] at hg
      rw [glookup] at hg
      simp at hg
  have hacyc : ∀ a, ¬ Relation.TransGen (Edge [("r", SObj.record "r" [] "" (.lst ["p"]))]) a a := by
    intro a h
    cases h with
    | single he => exact hnoedge _ _ he
    | tail h1 he => exact hnoedge _ _ he
  exact ⟨by decide, by decide, by decide, hacyc,
    toposort_dag _ (by decide) (by decide) (by decide) hacyc⟩

/-- C5 (counterexample): this graph contains the 2-cycle `A ↔ B` between
two of its keys, yet `toposort` fails with a `KeyError` (not
CycleDetected): the driver visits `"c"` first and its dependency `"x"`
is not a key of the graph, so the missing-key failure preempts the cycle
detection.  The claim needs a dependency-closure proviso to guarantee
the CycleDetected error. -/
theorem toposort_keyerr_despite_cycle :
    toposort [("c", SObj.sequence "c" "x" "" (.lst [])),
              ("A", SObj.sequence "A" "B" "" (.lst [])),
              ("B", SObj.sequence "B" "A" "" (.lst []))] = .error (.keyErr "x") := rfl

theorem toposort_cycle_witness :
    (keysOf [("A", SObj.sequence "A" "B" "" (.lst [])),
             ("B", SObj.sequence "B" "A" "" (.lst []))]).Nodup ∧
    Closed [("A", SObj.sequence "A" "B" "" (.lst [])),
            ("B", SObj.sequence "B" "A" "" (.lst []))] ∧
    AllDeps [("A", SObj.sequence "A" "B" "" (.lst [])),
             ("B", SObj.sequence "B" "A" "" (.lst []))] ∧
    (∃ a, Relation.TransGen
      (Edge [("A", SObj.sequence "A" "B" "" (.lst [])),
             ("B", SObj.sequence "B" "A" "" (.lst []))]) a a) ∧
    toposort [("A", SObj.sequence "A" "B" "" (.lst [])),
              ("B", SObj.sequence "B" "A" "" (.lst []))] = .error .cycle := by
  have eAB : Edge [("A", SObj.sequence "A" "B" "" (.lst [])),
      ("B", SObj.sequence "B" "A" "" (.lst []))] "A" "B" :=
    ⟨SObj.sequence "A" "B" "" (.lst []), rfl, ["B"], rfl, by simp⟩
  have eBA : Edge [("A", SObj.sequence "A" "B" "" (.lst [])),
      ("B", SObj.sequence "B" "A" "" (.lst []))] "B" "A" :=
    ⟨SObj.sequence "B" "A" "" (.lst []), rfl, ["A"], rfl, by simp⟩
  have hcyc : ∃ a, Relation.TransGen
      (Edge [("A", SObj.sequence "A" "B" "" (.lst [])),
             ("B", SObj.sequence "B" "A" "" (.lst []))]) a a :=
    ⟨"A", Relation.TransGen.tail (Relation.TransGen.single eAB) eBA⟩
  exact ⟨by decide, by decide, by decide, hcyc,
    toposort_cycle _ (by decide) (by decide) (by decide) hcyc⟩

end Moo
